import Mathlib

/-!
# Verification of the Ginkgo value/GC substrate

A shallow embedding of the Ginkgo repository (src/lib.rs, src/string.rs):
the tagged value model, the garbage-collected heap arena, the rooting
mechanism, the mark-phase tracing protocol, the textual renderer and the
string escape/unescape codec.  Characters are modelled as natural numbers
(Unicode scalar values); Rust strings are lists of such numbers.
-/

namespace Ginkgo

/-! ## String codec (src/string.rs) -/

/-- `char::from_u32`: succeeds exactly on valid Unicode scalar values. -/
def from_u32 (c : Nat) : Option Nat :=
  if c < 0xD800 ∨ (0xDFFF < c ∧ c < 0x110000) then some c else none

/-- The per-character expansion performed by `escape` (the match arms of
`escape` in src/string.rs, in source order). -/
def escapeChar (c : Nat) : List Nat :=
  if c = 0x00 then [92, 48]        -- \0
  else if c = 0x07 then [92, 97]   -- \a
  else if c = 0x08 then [92, 98]   -- \b
  else if c = 0x09 then [92, 116]  -- \t
  else if c = 0x0a then [92, 110]  -- \n
  else if c = 0x0b then [92, 118]  -- \v
  else if c = 0x0c then [92, 102]  -- \f
  else if c = 0x0d then [92, 114]  -- \r
  else if c = 0x1b then [92, 101]  -- \e
  else if c = 34 then [92, 34]     -- \"
  else if c = 92 then [92, 92]     -- \\
  else if c = 0x7f then [92, 94, 63]                 -- \^?
  else if 0x01 ≤ c ∧ c ≤ 0x1a then [92, 94, c + 97 - 1]  -- \^a .. \^z
  else if 0x01 ≤ c ∧ c ≤ 0x1f then [92, 94, c + 65 - 1]  -- \^\ .. \^_
  else [c]

/-- `escape` from src/string.rs: expand every character. -/
def escape (s : List Nat) : List Nat :=
  (s.map escapeChar).flatten

/-- `unescape_unicode` from src/string.rs: read exactly `nchars` hex digits,
accumulating into `code`, then convert with `from_u32`.  Returns the decoded
scalar together with the remaining input. -/
def unescape_unicode : Nat → Nat → List Nat → Option (Nat × List Nat)
  | 0, code, rest => (from_u32 code).map (fun c => (c, rest))
  | nchars + 1, code, input =>
    match input with
    | [] => none
    | c :: rest =>
      if (48 ≤ c ∧ c ≤ 57) ∨ (97 ≤ c ∧ c ≤ 102) ∨ (65 ≤ c ∧ c ≤ 70) then
        unescape_unicode nchars
          (code * 16 + (if c ≤ 57 then c - 48 else if c ≤ 70 then c - 55 else c - 87))
          rest
      else none

/-- The single-character arms of `unescape_single` in src/string.rs: the
named escapes (seen just after the backslash) and their decodings. -/
def namedUnescape (c : Nat) : Option Nat :=
  if c = 48 then some 0x00        -- 0
  else if c = 97 then some 0x07   -- a
  else if c = 98 then some 0x08   -- b
  else if c = 116 then some 0x09  -- t
  else if c = 110 then some 0x0a  -- n
  else if c = 118 then some 0x0b  -- v
  else if c = 102 then some 0x0c  -- f
  else if c = 114 then some 0x0d  -- r
  else if c = 101 then some 0x1b  -- e
  else if c = 34 then some 34     -- "
  else if c = 92 then some 92     -- backslash
  else none

/-- The caret (`\^`) arm of `unescape_single` in src/string.rs. -/
def caretUnescape : List Nat → Option (Nat × List Nat)
  | [] => none
  | d :: rest2 =>
    if d = 63 then some (0x7f, rest2)
    else if 97 ≤ d ∧ d ≤ 122 then (from_u32 (1 + d - 97)).map (fun x => (x, rest2))
    else if 64 ≤ d ∧ d ≤ 95 then (from_u32 (1 + d - 65)).map (fun x => (x, rest2))
    else none

/-- `unescape_single` from src/string.rs: decode one escape sequence (the
input starts just after the backslash); returns the decoded character and
the remaining input. -/
def unescape_single : List Nat → Option (Nat × List Nat)
  | [] => none
  | c :: rest =>
    match namedUnescape c with
    | some d => some (d, rest)
    | none =>
      if c = 94 then caretUnescape rest       -- ^
      else if c = 117 then unescape_unicode 4 0 rest  -- u
      else if c = 85 then unescape_unicode 8 0 rest   -- U
      else none

theorem unescape_unicode_length {k code l c r}
    (h : unescape_unicode k code l = some (c, r)) : r.length ≤ l.length := by
  induction k generalizing code l with
  | zero =>
    simp only [unescape_unicode, Option.map_eq_some'] at h
    obtain ⟨x, -, hx⟩ := h
    cases hx
    exact Nat.le_refl _
  | succ k ih =>
    cases l with
    | nil => simp [unescape_unicode] at h
    | cons a rest =>
      simp only [unescape_unicode] at h
      split at h
      · exact Nat.le_trans (ih h) (Nat.le_succ _)
      · exact absurd h (by simp)

theorem caretUnescape_length {l c r}
    (h : caretUnescape l = some (c, r)) : r.length ≤ l.length := by
  cases l with
  | nil => simp [caretUnescape] at h
  | cons d rest2 =>
    simp only [caretUnescape] at h
    split_ifs at h with g1 g2 g3
    · cases h; exact Nat.le_succ _
    · simp only [Option.map_eq_some'] at h
      obtain ⟨x, -, hx⟩ := h
      cases hx
      exact Nat.le_succ _
    · simp only [Option.map_eq_some'] at h
      obtain ⟨x, -, hx⟩ := h
      cases hx
      exact Nat.le_succ _

theorem unescape_single_length {l c r}
    (h : unescape_single l = some (c, r)) : r.length ≤ l.length := by
  cases l with
  | nil => simp [unescape_single] at h
  | cons a rest =>
    simp only [unescape_single] at h
    split at h
    · cases h; exact Nat.le_succ _
    · split_ifs at h with h1 h2 h3
      · exact Nat.le_trans (caretUnescape_length h) (Nat.le_succ _)
      · exact Nat.le_trans (unescape_unicode_length h) (Nat.le_succ _)
      · exact Nat.le_trans (unescape_unicode_length h) (Nat.le_succ _)

/-- `unescape` from src/string.rs: copy characters, decoding each
backslash escape with `unescape_single`; fails if any escape fails. -/
def unescape : List Nat → Option (List Nat)
  | [] => some []
  | c :: rest =>
    if c = 92 then
      match h2 : unescape_single rest with
      | some (d, rest2) => (unescape rest2).map (fun t => d :: t)
      | none => none
    else
      (unescape rest).map (fun t => c :: t)
termination_by l => l.length
decreasing_by
  · exact Nat.lt_succ_of_le (unescape_single_length h2)
  · exact Nat.lt_succ_of_le (Nat.le_refl _)

theorem unescape_nil : unescape [] = some [] := by
  rw [unescape]

theorem unescape_cons_ne (c : Nat) (rest : List Nat) (hc : ¬ c = 92) :
    unescape (c :: rest) = (unescape rest).map (fun t => c :: t) := by
  rw [unescape]
  simp [hc]

theorem unescape_cons_single {rest : List Nat} {d r}
    (h : unescape_single rest = some (d, r)) :
    unescape (92 :: rest) = (unescape r).map (fun t => d :: t) := by
  rw [unescape]
  split
  · split
    · rename_i d' r' heq
      rw [h] at heq
      cases heq
      rfl
    · rename_i heq
      rw [h] at heq
      cases heq
  · rename_i hc
    exact absurd rfl hc

theorem unescape_single_caret_lo {c : Nat} (h1 : 1 ≤ c) (h2 : c ≤ 26) (t : List Nat) :
    unescape_single (94 :: (c + 97 - 1) :: t) = some (c, t) := by
  interval_cases c <;> rfl

theorem unescape_single_caret_hi {c : Nat} (h1 : 28 ≤ c) (h2 : c ≤ 31) (t : List Nat) :
    unescape_single (94 :: (c + 65 - 1) :: t) = some (c, t) := by
  interval_cases c <;> rfl

/-- Inverting a single escaped character: `unescape` undoes `escapeChar`
regardless of what follows. -/
theorem unescape_escapeChar (c : Nat) (t : List Nat) :
    unescape (escapeChar c ++ t) = (unescape t).map (fun s => c :: s) := by
  unfold escapeChar
  by_cases h0 : c = 0x00
  · rw [if_pos h0]; subst h0; exact unescape_cons_single rfl
  rw [if_neg h0]
  by_cases h7 : c = 0x07
  · rw [if_pos h7]; subst h7; exact unescape_cons_single rfl
  rw [if_neg h7]
  by_cases h8 : c = 0x08
  · rw [if_pos h8]; subst h8; exact unescape_cons_single rfl
  rw [if_neg h8]
  by_cases h9 : c = 0x09
  · rw [if_pos h9]; subst h9; exact unescape_cons_single rfl
  rw [if_neg h9]
  by_cases ha : c = 0x0a
  · rw [if_pos ha]; subst ha; exact unescape_cons_single rfl
  rw [if_neg ha]
  by_cases hb : c = 0x0b
  · rw [if_pos hb]; subst hb; exact unescape_cons_single rfl
  rw [if_neg hb]
  by_cases hc : c = 0x0c
  · rw [if_pos hc]; subst hc; exact unescape_cons_single rfl
  rw [if_neg hc]
  by_cases hd : c = 0x0d
  · rw [if_pos hd]; subst hd; exact unescape_cons_single rfl
  rw [if_neg hd]
  by_cases he : c = 0x1b
  · rw [if_pos he]; subst he; exact unescape_cons_single rfl
  rw [if_neg he]
  by_cases hq : c = 34
  · rw [if_pos hq]; subst hq; exact unescape_cons_single rfl
  rw [if_neg hq]
  by_cases hbs : c = 92
  · rw [if_pos hbs]; subst hbs; exact unescape_cons_single rfl
  rw [if_neg hbs]
  by_cases hdel : c = 0x7f
  · rw [if_pos hdel]; subst hdel; exact unescape_cons_single rfl
  rw [if_neg hdel]
  by_cases hlo : 0x01 ≤ c ∧ c ≤ 0x1a
  · rw [if_pos hlo]
    exact unescape_cons_single (unescape_single_caret_lo hlo.1 hlo.2 t)
  rw [if_neg hlo]
  by_cases hhi : 0x01 ≤ c ∧ c ≤ 0x1f
  · rw [if_pos hhi]
    exact unescape_cons_single (unescape_single_caret_hi (by omega) hhi.2 t)
  rw [if_neg hhi]
  exact unescape_cons_ne c t hbs

/-- `unescape` is a left inverse of `escape` (in fact on every input). -/
theorem unescape_escape (s : List Nat) : unescape (escape s) = some s := by
  induction s with
  | nil => exact unescape_nil
  | cons c s ih =>
    have e : escape (c :: s) = escapeChar c ++ escape s := by
      simp [escape]
    rw [e, unescape_escapeChar, ih]
    rfl

/-- C3: For every string s consisting of characters in the defined
control/quote/backslash set plus printable characters (all of which lie in
the 7-bit range), `unescape (escape s)` returns `some s`: `unescape` is a
left inverse of `escape` on such inputs. -/
theorem claim_C3 (s : List Nat) (hset : ∀ c ∈ s, c ≤ 0x7f) :
    unescape (escape s) = some s :=
  unescape_escape s

theorem claim_C3_witness :
    (∀ c ∈ ([10, 34, 92, 65, 127, 0, 1, 31] : List Nat), c ≤ 0x7f) ∧
    unescape (escape [10, 34, 92, 65, 127, 0, 1, 31]) =
      some [10, 34, 92, 65, 127, 0, 1, 31] :=
  ⟨by decide, claim_C3 _ (by decide)⟩

/-- C4 counterexample: the claim asserts that the `chr + 'a' - 1` offset
rule covers the whole 0x01–0x1F range, so 0x1C would render as `\^` followed
by the character with code 0x1C + 97 - 1 = 124.  The code instead uses the
uppercase offset `chr + 'A' - 1` for 0x1C–0x1F, producing code 92. -/
theorem claim_C4_cex : ¬ (escape [0x1c] = [92, 94, 0x1c + 97 - 1]) := by
  decide

/-- C4 (amended): escape maps every control character in 0x01–0x1A that is
not a named escape to `\^` plus the letter with code `chr + 'a' - 1`
(0x01→a … 0x1A→z); the remaining control characters 0x1C–0x1F (0x1B being
the named escape `\e`) are mapped with the uppercase offset `chr + 'A' - 1`;
and every character outside the control/quote/backslash/DEL set passes
through escape unchanged. -/
theorem claim_C4 :
    (∀ c, 1 ≤ c → c ≤ 0x1a → c ∉ ([7, 8, 9, 10, 11, 12, 13] : List Nat) →
      escapeChar c = [92, 94, c + 97 - 1]) ∧
    (∀ c, 0x1c ≤ c → c ≤ 0x1f → escapeChar c = [92, 94, c + 65 - 1]) ∧
    (∀ c, 32 ≤ c → c ≠ 34 → c ≠ 92 → c ≠ 0x7f → escapeChar c = [c]) := by
  refine ⟨?_, ?_, ?_⟩
  · intro c hc1 hc2 hm
    interval_cases c <;> first
      | rfl
      | exact absurd (by decide) hm
  · intro c hc1 hc2
    interval_cases c <;> rfl
  · intro c h32 hq hbs hdel
    unfold escapeChar
    repeat rw [if_neg (by omega)]

theorem claim_C4_witness :
    escapeChar 1 = [92, 94, 97] ∧ escapeChar 28 = [92, 94, 92] ∧
    escapeChar 65 = [65] :=
  ⟨claim_C4.1 1 (by decide) (by decide) (by decide),
   claim_C4.2.1 28 (by decide) (by decide),
   claim_C4.2.2 65 (by decide) (by decide) (by decide) (by decide)⟩

/-! ## Value model (src/lib.rs)

Rust `f64` payloads are embedded as `F64`: finite values are exact
rationals, with NaN and the infinities as separate constructors.  The code
touches floats only through Rust's `==` (IEEE comparison, modelled by
`f64Eq`) and Rust's `Display` (shortest-roundtrip decimal, modelled by
`F64.fmt`; the float values appearing in the repository all have short
exact decimal forms on which the shortest roundtrip string is exactly the
canonical decimal). -/

/-- IEEE-754 binary64 payload as observed by the code. -/
inductive F64 where
  | num (q : ℚ)
  | inf (neg : Bool)
  | nan
deriving DecidableEq

/-- Rust `==` on `f64`: IEEE comparison, under which NaN is unequal to
everything including itself. -/
def f64Eq : F64 → F64 → Bool
  | .num a, .num b => decide (a = b)
  | .inf a, .inf b => a == b
  | _, _ => false

/-- Smallest positive exponent `k` with `d ∣ 10 ^ k` (for denominators of
floats, which divide a power of ten times a power of two this always
exists; the search bound is far beyond any binary64 denominator). -/
def ratDenExp (d : Nat) : Nat :=
  ((List.range 1200).find? (fun k => decide (0 < k) && decide (10 ^ k % d = 0))).getD 1

/-- Rust `Display` for `f64`: decimal text of the value.  For a finite
value with exact decimal expansion this is the canonical decimal without
trailing zeros, and without a decimal point when the value is integral. -/
def F64.fmt : F64 → String
  | .nan => "NaN"
  | .inf b => if b then "-inf" else "inf"
  | .num q =>
    let sign := if q < 0 then "-" else ""
    let a := q.num.natAbs
    let d := q.den
    if d = 1 then sign ++ toString a
    else
      let k := ratDenExp d
      let m := a * 10 ^ k / d
      let fr := toString (m % 10 ^ k)
      sign ++ toString (m / 10 ^ k) ++ "." ++
        String.mk (List.replicate (k - fr.length) '0') ++ fr

/-- Stack-based Ginkgo value (`SVal` in src/lib.rs). -/
inductive SVal where
  | Undefined
  | Nil
  | Bool (b : Bool)
  | Int (v : Int)
  | Float (v : F64)
deriving DecidableEq

/-- Modelled from the spec: broom's `Handle` (not under src/) identifies a
heap slot as a `(slot_index, generation)` pair; derived equality compares
both components. -/
structure Handle where
  idx : Nat
  gen : Nat
deriving DecidableEq

/-- Safe Ginkgo object (`Object` in src/lib.rs): either a stack value or a
GC handle to a heap value. -/
inductive Object where
  | S (v : SVal)
  | H (h : Handle)
deriving DecidableEq

/-- Heap-based Ginkgo value (`HVal` in src/lib.rs). -/
inductive HVal where
  | Cons (car cdr : Object)
  | Vec (elems : List Object)
  | String (s : List Nat)
deriving DecidableEq

/-- Rooted Ginkgo object (`RootedObject` in src/lib.rs); the heap case
wraps a `Rooted` whose `handle()` is the underlying handle. -/
inductive RootedObject where
  | S (v : SVal)
  | H (h : Handle)
deriving DecidableEq

/-- Rust `==` on `SVal` (`derive(PartialEq)`): structural on every variant,
with the `Float` payloads compared by IEEE `==`. -/
def svalEq : SVal → SVal → Bool
  | .Undefined, .Undefined => true
  | .Nil, .Nil => true
  | .Bool a, .Bool b => a == b
  | .Int a, .Int b => a == b
  | .Float a, .Float b => f64Eq a b
  | _, _ => false

/-- Rust `==` on `Object` (`derive(PartialEq)`). -/
def objEq : Object → Object → Bool
  | .S a, .S b => svalEq a b
  | .H a, .H b => decide (a = b)
  | _, _ => false

/-- `PartialEq for RootedObject` (src/lib.rs lines 150–158). -/
def rootedEq : RootedObject → RootedObject → Bool
  | .S a, .S b => svalEq a b
  | .H a, .H b => decide (a = b)
  | _, _ => false

/-- `PartialEq<RootedObject> for Object` (src/lib.rs lines 160–168). -/
def objRootedEq : Object → RootedObject → Bool
  | .S a, .S b => svalEq a b
  | .H a, .H b => decide (a = b)
  | _, _ => false

/-- `PartialEq<Object> for RootedObject` (src/lib.rs lines 170–178). -/
def rootedObjEq : RootedObject → Object → Bool
  | .S a, .S b => svalEq a b
  | .H a, .H b => decide (a = b)
  | _, _ => false

/-- `RootedObject::unroot` / `Object::unroot`: forget rooting. -/
def RootedObject.unroot : RootedObject → Object
  | .S v => .S v
  | .H h => .H h

/-- The canonical constants (`Object::Nil` etc. in src/lib.rs). -/
def Object.Nil : Object := .S .Nil

def Object.Undef : Object := .S .Undefined

def Object.True : Object := .S (.Bool true)

def Object.False : Object := .S (.Bool false)

/-! ## Tracer protocol (src/lib.rs, `Trace` impls)

The mark phase of broom's collector asks each value for the handles it
holds; the `Trace` impls in src/lib.rs enumerate them.  We model a tracer
run as the list of handles visited, in visit order. -/

/-- `Trace<HVal> for Object` (src/lib.rs lines 127–133): a heap-resident
reference yields its handle; an immediate yields nothing. -/
def Object.trace : Object → List Handle
  | .S _ => []
  | .H h => [h]

/-- `Trace<HVal> for HVal` (src/lib.rs lines 135–148): a cons traces its
car then its cdr; a vector traces its elements in order; a string traces
nothing. -/
def HVal.trace : HVal → List Handle
  | .Cons car cdr => car.trace ++ cdr.trace
  | .Vec elems => (elems.map Object.trace).flatten
  | .String _ => []

/-! ## Heap, root table and collector

Modelled from the spec: the heap arena behind `VM` is the broom crate,
which is not under src/.  Spec §3–§4.5 describe it: an arena of slots
holding heap values, free-slot reuse guarded by generation counters
(freeing a slot increments its generation), a root table holding a
reference count per rooted slot, and a stop-the-world mark-and-sweep
collector whose mark phase starts from the root table and follows the
trace relation. -/

/-- A heap slot: its current generation and its contents (`none` = free). -/
structure Slot where
  gen : Nat
  val : Option HVal
deriving DecidableEq

/-- The Ginkgo virtual machine (`VM` in src/lib.rs); its `heap` field is
modelled from the spec as the slot arena plus the root table (a multiset
of rooted slot indices: one entry per live rooting, so the reference count
of slot `i` is the number of occurrences of `i`). -/
structure VM where
  slots : List Slot
  roots : List Nat
deriving DecidableEq

/-- `VM::new`. -/
def VM.new : VM := ⟨[], []⟩

/-- `VM::heapsize` — modelled from the spec: the number of occupied slots. -/
def VM.heapsize (vm : VM) : Nat :=
  vm.slots.countP (fun s => s.val.isSome)

/-- The slot at index `i`, if it exists. -/
def VM.slot? (vm : VM) (i : Nat) : Option Slot := vm.slots[i]?

/-- The value occupying slot `i`, if any. -/
def VM.slotVal (vm : VM) (i : Nat) : Option HVal := (vm.slot? i).bind Slot.val

/-- Modelled from the spec: `Heap::get` succeeds iff the handle's
generation matches the slot's current generation. -/
def VM.get (vm : VM) (h : Handle) : Option HVal :=
  match vm.slot? h.idx with
  | some s => if s.gen = h.gen then s.val else none
  | none => none

/-- Modelled from the spec: insertion reuses the first free slot (keeping
its current generation) or grows the arena; returns `(index, generation,
new slots)`. -/
def insertSlots (v : HVal) : List Slot → Nat × Nat × List Slot
  | [] => (0, 0, [⟨0, some v⟩])
  | s :: rest =>
    if s.val.isNone then (0, s.gen, ⟨s.gen, some v⟩ :: rest)
    else
      let r := insertSlots v rest
      (r.1 + 1, r.2.1, s :: r.2.2)

/-- Modelled from the spec: `Heap::insert_temp` allocates a slot for the
value and returns an unrooted handle to it. -/
def VM.insert_temp (vm : VM) (v : HVal) : Handle × VM :=
  let r := insertSlots v vm.slots
  (⟨r.1, r.2.1⟩, ⟨r.2.2, vm.roots⟩)

/-- `VM::cons`. -/
def VM.cons (vm : VM) (car cdr : Object) : Object × VM :=
  let r := vm.insert_temp (.Cons car cdr)
  (.H r.1, r.2)

/-- `VM::vec`: a fresh vector of `len` undefined objects. -/
def VM.vec (vm : VM) (len : Nat) : Object × VM :=
  let r := vm.insert_temp (.Vec (List.replicate len Object.Undef))
  (.H r.1, r.2)

/-- `VM::string`. -/
def VM.string (vm : VM) (s : List Nat) : Object × VM :=
  let r := vm.insert_temp (.String s)
  (.H r.1, r.2)

/-- `VM::int`. -/
def VM.int (_ : VM) (v : Int) : Object := .S (.Int v)

/-- `VM::float`. -/
def VM.float (_ : VM) (v : F64) : Object := .S (.Float v)

/-- `DObj` in src/lib.rs: a resolved object; `D` is the dead (stale
handle) case. -/
inductive DObj where
  | D (h : Handle)
  | S (v : SVal)
  | H (v : HVal)
deriving DecidableEq

/-- `VM::direct`: resolve an object; a failed heap lookup yields the dead
marker carrying the stale handle. -/
def VM.direct (vm : VM) (o : Object) : DObj :=
  match o with
  | .S v => .S v
  | .H h =>
    match vm.get h with
    | some v => .H v
    | none => .D h

/-- `VM::car`. -/
def VM.car (vm : VM) (o : Object) : Option Object :=
  match vm.direct o with
  | .H (.Cons car _) => some car
  | _ => none

/-- `VM::cdr`. -/
def VM.cdr (vm : VM) (o : Object) : Option Object :=
  match vm.direct o with
  | .H (.Cons _ cdr) => some cdr
  | _ => none

/-- `VM::vec_get`. -/
def VM.vec_get (vm : VM) (o : Object) (index : Nat) : Option Object :=
  match vm.direct o with
  | .H (.Vec elems) => elems[index]?
  | _ => none

/-- Replace the value in slot `i` (generation unchanged): the mutation
performed through `Heap::get_mut`. -/
def setSlotVal : List Slot → Nat → HVal → List Slot
  | [], _, _ => []
  | s :: rest, 0, v => ⟨s.gen, some v⟩ :: rest
  | s :: rest, i + 1, v => s :: setSlotVal rest i v

/-- `VM::vec_set`: `Ok(())` on success; `Err(())` when the index is out of
bounds or the reference does not resolve to a vector. -/
def VM.vec_set (vm : VM) (o : Object) (index : Nat) (val : Object) :
    Except Unit Unit × VM :=
  match o with
  | .S _ => (.error (), vm)
  | .H h =>
    match vm.get h with
    | some (.Vec elems) =>
      if index < elems.length then
        (.ok (), ⟨setSlotVal vm.slots h.idx (.Vec (elems.set index val)), vm.roots⟩)
      else (.error (), vm)
    | _ => (.error (), vm)

/-- Modelled from the spec: `Heap::make_rooted` registers one rooting of
the handle's slot in the root table. -/
def VM.make_rooted (vm : VM) (h : Handle) : RootedObject × VM :=
  (.H h, ⟨vm.slots, h.idx :: vm.roots⟩)

/-- `GObj::root for Object` (src/lib.rs lines 91–96). -/
def Object.root (o : Object) (vm : VM) : RootedObject × VM :=
  match o with
  | .S v => (.S v, vm)
  | .H h => vm.make_rooted h

/-- Modelled from the spec: dropping a `RootedObject` releases one rooting
of its slot (decrements the reference count). -/
def VM.release (vm : VM) (r : RootedObject) : VM :=
  match r with
  | .S _ => vm
  | .H h => ⟨vm.slots, vm.roots.erase h.idx⟩

/-! ## Mark and sweep (modelled from the spec, §4.3)

The mark phase seeds a work set with the root table's slots and closes it
under the one-step trace relation between slot indices; the sweep phase
frees every occupied unmarked slot and bumps its generation. -/

/-- The one-step trace relation between slot indices: the value occupying
slot `i` yields a handle whose index is `j`. -/
def VM.edge (vm : VM) (i j : Nat) : Prop :=
  ∃ v, vm.slotVal i = some v ∧ j ∈ v.trace.map Handle.idx

instance (vm : VM) (i j : Nat) : Decidable (vm.edge i j) :=
  match h : vm.slotVal i with
  | some v =>
    if hj : j ∈ v.trace.map Handle.idx then
      .isTrue ⟨v, h, hj⟩
    else
      .isFalse (fun ⟨w, hw, hjw⟩ => by
        rw [h] at hw
        cases hw
        exact hj hjw)
  | none =>
    .isFalse (fun ⟨w, hw, _⟩ => by rw [h] at hw; cases hw)

/-- One round of marking: add every in-range slot reached in one step from
the current mark set. -/
def VM.stepF (vm : VM) (S : Finset Nat) : Finset Nat :=
  S ∪ (Finset.range vm.slots.length).filter (fun j => ∃ i ∈ S, vm.edge i j)

theorem VM.subset_stepF (vm : VM) (S : Finset Nat) : S ⊆ vm.stepF S :=
  Finset.subset_union_left

/-- Iterate `stepF` to its fixed point: the work-queue loop of the mark
phase. -/
def VM.saturate (vm : VM) (S : Finset Nat) : Finset Nat :=
  if h : vm.stepF S = S then S else vm.saturate (vm.stepF S)
termination_by ((Finset.range vm.slots.length) \ S).card
decreasing_by
  have hsub : S ⊆ vm.stepF S := vm.subset_stepF S
  have hss : S ⊂ vm.stepF S := ssubset_of_ne_of_subset (Ne.symm h) hsub
  obtain ⟨x, hxin, hxout⟩ := Finset.exists_of_ssubset hss
  have hxrange : x ∈ Finset.range vm.slots.length := by
    rcases Finset.mem_union.mp hxin with hx | hx
    · exact absurd hx hxout
    · exact (Finset.mem_filter.mp hx).1
  apply Finset.card_lt_card
  refine (Finset.ssubset_iff_of_subset
    (Finset.sdiff_subset_sdiff (Finset.Subset.refl _) hsub)).mpr ?_
  exact ⟨x, Finset.mem_sdiff.mpr ⟨hxrange, hxout⟩,
    fun hc => (Finset.mem_sdiff.mp hc).2 hxin⟩

/-- The root table as a set of slot indices. -/
def VM.rootSet (vm : VM) : Finset Nat := vm.roots.toFinset

/-- The set of slots the mark phase marks. -/
def VM.markSet (vm : VM) : Finset Nat := vm.saturate vm.rootSet

/-- The sweep phase over the arena starting at slot index `i`: free every
occupied slot not in the mark set, bumping its generation. -/
def sweepFrom (m : Finset Nat) : Nat → List Slot → List Slot
  | _, [] => []
  | i, s :: rest =>
    (if s.val.isSome ∧ i ∉ m then (⟨s.gen + 1, none⟩ : Slot) else s)
      :: sweepFrom m (i + 1) rest

/-- `VM::gc` (via broom's `Heap::clean`, modelled from the spec):
mark from the root table, sweep everything unmarked. -/
def VM.gc (vm : VM) : VM := ⟨sweepFrom vm.markSet 0 vm.slots, vm.roots⟩

/-- A slot index is reachable when some rooted slot reaches it through the
reflexive-transitive closure of the trace relation. -/
def VM.Reach (vm : VM) (j : Nat) : Prop :=
  ∃ i ∈ vm.roots, Relation.ReflTransGen vm.edge i j

/-- The handles traced from the occupant of slot `i` (none if free). -/
def VM.tracedOf (vm : VM) (i : Nat) : List Handle :=
  match vm.slotVal i with
  | some v => v.trace
  | none => []

/-- Well-formedness of a VM state: every rooted slot is occupied, and
every handle stored in an occupied slot points at an in-range occupied
slot.  Every state produced by the public API satisfies this. -/
def VM.WF (vm : VM) : Prop :=
  (∀ i ∈ vm.roots, (vm.slotVal i).isSome = true) ∧
  (∀ i, i < vm.slots.length → ∀ h ∈ vm.tracedOf i,
    h.idx < vm.slots.length ∧ (vm.slotVal h.idx).isSome = true)

instance (vm : VM) : Decidable vm.WF := by
  unfold VM.WF
  infer_instance

/-! ## Renderer (src/lib.rs, `Display for WrappedObject`)

`vm.wrap(obj)` plus `Display` is modelled as a function from the VM and an
object to the rendered string.  The Rust renderer iterates through cons
tails and recurses into nested values; on cyclic heap structures it would
not terminate, so the embedding passes fuel, with enough fuel supplied for
every acyclic structure. -/

/-- Interpret character codes as a string (for rendering text values). -/
def codesToString (s : List Nat) : String :=
  String.mk (s.map Char.ofNat)

mutual

/-- One `Display::fmt` call on a wrapped object (src/lib.rs lines
195–239). -/
def renderOb (vm : VM) : Nat → Object → String
  | 0, _ => ""
  | fuel + 1, o =>
    match vm.direct o with
    | .D h => "#dead<" ++ toString h.idx ++ ":" ++ toString h.gen ++ ">"
    | .S .Undefined => "#undefined"
    | .S .Nil => "nil"
    | .S (.Bool true) => "#t"
    | .S (.Bool false) => "#f"
    | .S (.Int v) => toString v
    | .S (.Float v) =>
      let s := v.fmt
      if s.data.contains '.' then s else s ++ ".0"
    | .H (.Cons car cdr) => "(" ++ renderOb vm fuel car ++ renderTail vm fuel cdr
    | .H (.Vec elems) =>
      "#(" ++ (match elems with
        | [] => ""
        | e :: rest =>
          rest.foldl (fun acc o => acc ++ " " ++ renderOb vm fuel o)
            (renderOb vm fuel e)) ++ ")"
    | .H (.String s) => "\x22" ++ codesToString (escape s) ++ "\x22"

/-- The iterative walk along the cons tail chain inside `Display::fmt`,
closing with `)` at a `Nil` terminator and with ` . <terminator>)`
otherwise. -/
def renderTail (vm : VM) : Nat → Object → String
  | 0, _ => ""
  | fuel + 1, t =>
    match vm.direct t with
    | .H (.Cons car cdr) => " " ++ renderOb vm fuel car ++ renderTail vm fuel cdr
    | _ => if objEq t Object.Nil then ")" else " . " ++ renderOb vm fuel t ++ ")"

end

/-- Render an object: `format!("{}", vm.wrap(obj))`.  Any acyclic
structure descends through at most `slots.length` distinct heap slots plus
one immediate terminator, so this fuel never runs out on structures the
Rust renderer terminates on. -/
def VM.render (vm : VM) (o : Object) : String :=
  renderOb vm (vm.slots.length + 2) o

/-! ## Heap lemmas -/

/-- The occupancy predicate counted by `heapsize`. -/
def occB (s : Slot) : Bool := s.val.isSome

theorem insertSlots_countP (v : HVal) (l : List Slot) :
    (insertSlots v l).2.2.countP occB = l.countP occB + 1 := by
  induction l with
  | nil => simp [insertSlots, occB, List.countP_cons]
  | cons s rest ih =>
    by_cases h : s.val.isNone
    · have hocc : occB s = false := by
        simp only [occB, Option.isSome]
        revert h
        cases s.val <;> simp [Option.isNone]
      simp [insertSlots, h, List.countP_cons, hocc, occB]
    · simp only [insertSlots, if_neg h]
      simp [List.countP_cons, ih]
      ring

/-- `insert_temp` grows the heap by exactly one occupied slot. -/
theorem insert_temp_heapsize (vm : VM) (v : HVal) :
    ((vm.insert_temp v).2).heapsize = vm.heapsize + 1 :=
  insertSlots_countP v vm.slots

/-- The freshly inserted slot holds the value at the returned handle's
index, with the returned handle's generation. -/
theorem insertSlots_lookup (v : HVal) (l : List Slot) :
    (insertSlots v l).2.2[(insertSlots v l).1]? =
      some ⟨(insertSlots v l).2.1, some v⟩ := by
  induction l with
  | nil => simp [insertSlots]
  | cons s rest ih =>
    by_cases h : s.val.isNone
    · simp [insertSlots, h]
    · simp [insertSlots, h, ih]

/-- Fresh handles resolve to the inserted value. -/
theorem insert_temp_get (vm : VM) (v : HVal) :
    ((vm.insert_temp v).2).get (vm.insert_temp v).1 = some v := by
  unfold VM.insert_temp VM.get VM.slot?
  simp [insertSlots_lookup v vm.slots]

/-! ## Mark-phase lemmas -/

theorem VM.stepF_measure_lt (vm : VM) {S : Finset Nat} (h : ¬ vm.stepF S = S) :
    ((Finset.range vm.slots.length) \ vm.stepF S).card <
      ((Finset.range vm.slots.length) \ S).card := by
  have hsub : S ⊆ vm.stepF S := vm.subset_stepF S
  have hss : S ⊂ vm.stepF S := ssubset_of_ne_of_subset (Ne.symm h) hsub
  obtain ⟨x, hxin, hxout⟩ := Finset.exists_of_ssubset hss
  have hxrange : x ∈ Finset.range vm.slots.length := by
    rcases Finset.mem_union.mp hxin with hx | hx
    · exact absurd hx hxout
    · exact (Finset.mem_filter.mp hx).1
  apply Finset.card_lt_card
  refine (Finset.ssubset_iff_of_subset
    (Finset.sdiff_subset_sdiff (Finset.Subset.refl _) hsub)).mpr ?_
  exact ⟨x, Finset.mem_sdiff.mpr ⟨hxrange, hxout⟩,
    fun hc => (Finset.mem_sdiff.mp hc).2 hxin⟩

/-- Any property preserved by one marking round transfers to the mark
fixpoint. -/
theorem VM.saturate_ind (vm : VM) (P : Finset Nat → Prop)
    (hstep : ∀ S, P S → P (vm.stepF S)) (S : Finset Nat) (hS : P S) :
    P (vm.saturate S) := by
  rw [VM.saturate]
  split
  · exact hS
  · exact vm.saturate_ind P hstep (vm.stepF S) (hstep S hS)
termination_by ((Finset.range vm.slots.length) \ S).card
decreasing_by exact vm.stepF_measure_lt (by assumption)

/-- The mark loop ends at a fixed point of `stepF`. -/
theorem VM.saturate_fixed (vm : VM) (S : Finset Nat) :
    vm.stepF (vm.saturate S) = vm.saturate S := by
  rw [VM.saturate]
  split
  · assumption
  · exact vm.saturate_fixed (vm.stepF S)
termination_by ((Finset.range vm.slots.length) \ S).card
decreasing_by exact vm.stepF_measure_lt (by assumption)

theorem VM.subset_saturate (vm : VM) (S : Finset Nat) : S ⊆ vm.saturate S := by
  have := vm.saturate_ind (fun T => S ⊆ T)
    (fun T hT => hT.trans (vm.subset_stepF T)) S (Finset.Subset.refl S)
  exact this

/-- Soundness of the mark phase: everything marked is reachable from the
root table through the trace relation. -/
theorem VM.markSet_sub_Reach (vm : VM) : ∀ j ∈ vm.markSet, vm.Reach j := by
  refine vm.saturate_ind (fun T => ∀ j ∈ T, vm.Reach j) ?_ vm.rootSet ?_
  · intro T hT j hj
    rcases Finset.mem_union.mp hj with hj | hj
    · exact hT j hj
    · obtain ⟨i, hiT, hedge⟩ := (Finset.mem_filter.mp hj).2
      obtain ⟨r, hr, hrtg⟩ := hT i hiT
      exact ⟨r, hr, hrtg.tail hedge⟩
  · intro j hj
    exact ⟨j, List.mem_toFinset.mp hj, Relation.ReflTransGen.refl⟩

/-- An occupied slot index is within the arena. -/
theorem VM.slotVal_lt_length (vm : VM) {i : Nat} {v : HVal}
    (h : vm.slotVal i = some v) : i < vm.slots.length := by
  unfold VM.slotVal VM.slot? at h
  cases hl : vm.slots[i]? with
  | none => rw [hl] at h; cases h
  | some s => exact (List.getElem?_eq_some.mp hl).1

/-- Under well-formedness, everything reachable is an occupied slot. -/
theorem VM.Reach_isSome (vm : VM) (hwf : vm.WF) :
    ∀ j, vm.Reach j → (vm.slotVal j).isSome = true := by
  rintro j ⟨i, hi, hrtg⟩
  induction hrtg with
  | refl => exact hwf.1 i hi
  | tail hab hedge ih =>
    rename_i b c
    obtain ⟨v, hv, hc⟩ := hedge
    obtain ⟨hh, hidx, hmem⟩ := List.mem_map.mp hc
    have hb : b < vm.slots.length := vm.slotVal_lt_length hv
    have := (hwf.2 b hb hh (by unfold VM.tracedOf; rw [hv]; exact hidx)).2
    rw [hmem] at this
    exact this

/-- Completeness of the mark phase under well-formedness: everything
reachable is marked. -/
theorem VM.Reach_sub_markSet (vm : VM) (hwf : vm.WF) :
    ∀ j, vm.Reach j → j ∈ vm.markSet := by
  rintro j ⟨i, hi, hrtg⟩
  induction hrtg with
  | refl => exact vm.subset_saturate vm.rootSet (List.mem_toFinset.mpr hi)
  | tail hab hedge ih =>
    rename_i b c
    have hb : b ∈ vm.markSet := ih
    have hcrange : c < vm.slots.length := by
      obtain ⟨v, hv, hc⟩ := hedge
      obtain ⟨hh, hidx, hmem⟩ := List.mem_map.mp hc
      have hblt : b < vm.slots.length := vm.slotVal_lt_length hv
      have := (hwf.2 b hblt hh (by unfold VM.tracedOf; rw [hv]; exact hidx)).1
      rw [hmem] at this
      exact this
    have hstep : c ∈ vm.stepF vm.markSet := by
      refine Finset.mem_union_right _ (Finset.mem_filter.mpr ?_)
      exact ⟨Finset.mem_range.mpr hcrange, b, hb, hedge⟩
    rw [VM.markSet] at hstep ⊢
    rw [vm.saturate_fixed vm.rootSet] at hstep
    exact hstep

/-! ## Sweep-phase lemmas -/

theorem sweepFrom_length (m : Finset Nat) (k : Nat) (l : List Slot) :
    (sweepFrom m k l).length = l.length := by
  induction l generalizing k with
  | nil => rfl
  | cons s rest ih => simp [sweepFrom, ih]

theorem sweepFrom_getElem? (m : Finset Nat) (l : List Slot) (k j : Nat) :
    (sweepFrom m k l)[j]? = (l[j]?).map
      (fun s => if s.val.isSome ∧ (k + j) ∉ m then (⟨s.gen + 1, none⟩ : Slot) else s) := by
  induction l generalizing k j with
  | nil => simp [sweepFrom]
  | cons s rest ih =>
    cases j with
    | zero => simp [sweepFrom]
    | succ j =>
      have e : k + (j + 1) = (k + 1) + j := by omega
      simp only [sweepFrom, List.getElem?_cons_succ, ih (k + 1) j, e]

/-- Counting a list predicate as counting indices. -/
theorem countP_eq_range {α : Type} (l : List α) (p : α → Bool) :
    l.countP p = (List.range l.length).countP
      (fun i => ((l[i]?).map p).getD false) := by
  induction l with
  | nil => simp
  | cons a l ih =>
    have hfun : ((fun i => (((a :: l)[i]?).map p).getD false) ∘ Nat.succ)
        = (fun i => ((l[i]?).map p).getD false) := by
      funext i
      simp only [Function.comp_apply, List.getElem?_cons_succ]
    rw [List.length_cons, List.range_succ_eq_map, List.countP_cons, List.countP_cons,
      List.countP_map, hfun, ih]
    simp only [List.getElem?_cons_zero, Option.map_some', Option.getD_some]

/-- Counting members of a finite set among `range n` gives its
cardinality once the set lies inside the range. -/
theorem countP_mem_range (n : Nat) : ∀ (m : Finset Nat), (∀ j ∈ m, j < n) →
    (List.range n).countP (fun j => decide (j ∈ m)) = m.card := by
  induction n with
  | zero =>
    intro m hm
    have : m = ∅ := Finset.eq_empty_of_forall_not_mem (fun j hj => by
      exact absurd (hm j hj) (Nat.not_lt_zero j))
    simp [this]
  | succ n ih =>
    intro m hm
    rw [List.range_succ, List.countP_append]
    by_cases hn : n ∈ m
    · have hcard : m.card = (m.erase n).card + 1 := by
        rw [Finset.card_erase_of_mem hn]
        have : 0 < m.card := Finset.card_pos.mpr ⟨n, hn⟩
        omega
      have hsub : ∀ j ∈ m.erase n, j < n := by
        intro j hj
        have hj1 := Finset.mem_erase.mp hj
        have := hm j hj1.2
        omega
      have hpt : (List.range n).countP (fun j => decide (j ∈ m)) =
          (List.range n).countP (fun j => decide (j ∈ m.erase n)) := by
        apply List.countP_congr
        intro j hj
        have hjn : j < n := List.mem_range.mp hj
        simp [Finset.mem_erase, Nat.ne_of_lt hjn]
      rw [hpt, ih (m.erase n) hsub, hcard]
      simp [hn]
    · have hsub : ∀ j ∈ m, j < n := by
        intro j hj
        have := hm j hj
        rcases Nat.lt_succ_iff_lt_or_eq.mp this with h | h
        · exact h
        · exact absurd (h ▸ hj) hn
      rw [ih m hsub]
      simp [hn]

/-- What collection does to the slot count: afterwards exactly the marked
occupied slots remain occupied. -/
theorem gc_heapsize_eq_card (vm : VM) (hocc : ∀ j ∈ vm.markSet, (vm.slotVal j).isSome = true) :
    (vm.gc).heapsize = vm.markSet.card := by
  show (sweepFrom vm.markSet 0 vm.slots).countP (fun s => s.val.isSome) =
    vm.markSet.card
  rw [countP_eq_range, sweepFrom_length]
  have hpt : ∀ j ∈ List.range vm.slots.length,
      ((((sweepFrom vm.markSet 0 vm.slots)[j]?).map (fun s => s.val.isSome)).getD false
        = true ↔ decide (j ∈ vm.markSet) = true) := by
    intro j hj
    rw [sweepFrom_getElem? vm.markSet vm.slots 0 j]
    simp only [Nat.zero_add]
    cases hl : vm.slots[j]? with
    | none =>
      have hlen : vm.slots.length ≤ j := by
        by_contra hcon
        push_neg at hcon
        rw [List.getElem?_eq_getElem hcon] at hl
        cases hl
      exact absurd (List.mem_range.mp hj) (Nat.not_lt_of_ge hlen)
    | some s =>
      simp only [Option.map_some']
      by_cases hjm : j ∈ vm.markSet
      · have hs : (vm.slotVal j).isSome = true := hocc j hjm
        unfold VM.slotVal VM.slot? at hs
        rw [hl] at hs
        simp [hjm, show s.val.isSome = true from hs]
      · by_cases hsv : s.val.isSome = true
        · simp [hjm, hsv]
        · have hcond : ¬(s.val.isSome = true ∧ j ∉ vm.markSet) := fun hc => hsv hc.1
          rw [if_neg hcond]
          simp only [Bool.not_eq_true] at hsv
          simp [hsv, hjm]
  rw [List.countP_congr hpt]
  refine countP_mem_range vm.slots.length vm.markSet ?_
  intro j hj
  have hs := hocc j hj
  unfold VM.slotVal VM.slot? at hs
  cases hl : vm.slots[j]? with
  | none => rw [hl] at hs; simp at hs
  | some s => exact (List.getElem?_eq_some.mp hl).1

/-! ## Collection preserves rooted slots -/

theorem gc_roots (vm : VM) : (vm.gc).roots = vm.roots := rfl

theorem gc_slot_of_marked (vm : VM) {i : Nat} (hi : i ∈ vm.markSet) :
    (vm.gc).slot? i = vm.slot? i := by
  show (sweepFrom vm.markSet 0 vm.slots)[i]? = vm.slots[i]?
  rw [sweepFrom_getElem?]
  simp only [Nat.zero_add]
  cases vm.slots[i]? with
  | none => rfl
  | some s => simp [hi]

theorem gc_get_rooted (vm : VM) (h : Handle) (hi : h.idx ∈ vm.roots) :
    (vm.gc).get h = vm.get h := by
  have hm : h.idx ∈ vm.markSet :=
    vm.subset_saturate vm.rootSet (List.mem_toFinset.mpr hi)
  unfold VM.get
  rw [show (vm.gc).slot? h.idx = vm.slot? h.idx from gc_slot_of_marked vm hm]

theorem gc_iter_roots (vm : VM) (k : Nat) : ((VM.gc)^[k] vm).roots = vm.roots := by
  induction k with
  | zero => rfl
  | succ k ih => rw [Function.iterate_succ_apply', gc_roots, ih]

/-! ## Claim C1 -/

/-- C1: every insertion of a heap value (`cons`, `vec`, `string`)
increases `heapsize` by exactly one; rooting a reference and releasing a
root leave `heapsize` unchanged; and after `gc` the `heapsize` equals
exactly the number of heap slots transitively reachable from the rooted
slots via the trace relation. -/
theorem claim_C1 :
    (∀ (vm : VM) (a d : Object), ((vm.cons a d).2).heapsize = vm.heapsize + 1) ∧
    (∀ (vm : VM) (n : Nat), ((vm.vec n).2).heapsize = vm.heapsize + 1) ∧
    (∀ (vm : VM) (s : List Nat), ((vm.string s).2).heapsize = vm.heapsize + 1) ∧
    (∀ (vm : VM) (o : Object), ((o.root vm).2).heapsize = vm.heapsize) ∧
    (∀ (vm : VM) (r : RootedObject), (vm.release r).heapsize = vm.heapsize) ∧
    (∀ vm : VM, vm.WF → (vm.gc).heapsize = {j | vm.Reach j}.ncard) := by
  refine ⟨?_, ?_, ?_, ?_, ?_, ?_⟩
  · intro vm a d; exact insert_temp_heapsize vm _
  · intro vm n; exact insert_temp_heapsize vm _
  · intro vm s; exact insert_temp_heapsize vm _
  · intro vm o; cases o <;> rfl
  · intro vm r; cases r <;> rfl
  · intro vm hwf
    have hocc : ∀ j ∈ vm.markSet, (vm.slotVal j).isSome = true :=
      fun j hj => vm.Reach_isSome hwf j (vm.markSet_sub_Reach j hj)
    have hset : {j | vm.Reach j} = ↑vm.markSet := by
      ext j
      simp only [Set.mem_setOf_eq, Finset.mem_coe]
      exact ⟨fun h => vm.Reach_sub_markSet hwf j h, fun h => vm.markSet_sub_Reach j h⟩
    rw [hset, Set.ncard_coe_Finset]
    exact gc_heapsize_eq_card vm hocc

/-- A two-cons chain with the inner cons rooted. -/
def exConsA : Object × VM := VM.new.cons Object.True Object.Nil

def exConsB : Object × VM := (exConsA.2).cons Object.False exConsA.1

def exVMRooted : VM := (exConsA.1.root exConsB.2).2

theorem claim_C1_witness :
    exVMRooted.WF ∧ (exVMRooted.gc).heapsize = {j | exVMRooted.Reach j}.ncard :=
  ⟨by decide, claim_C1.2.2.2.2.2 exVMRooted (by decide)⟩

/-! ## Claim C2 -/

/-- C2: while a slot is rooted, any number of collections leave the object
occupied and resolvable through its handle; a heap-resident object that no
rooted slot transitively reaches is reclaimed (its slot freed, its handle
dead) by the next collection. -/
theorem claim_C2 :
    (∀ (vm : VM) (h : Handle) (v : HVal) (k : Nat),
      h.idx ∈ vm.roots → vm.get h = some v →
      ((VM.gc)^[k] vm).get h = some v) ∧
    (∀ (vm : VM) (h : Handle),
      (vm.slotVal h.idx).isSome = true → ¬ vm.Reach h.idx →
      (vm.gc).slotVal h.idx = none ∧ (vm.gc).get h = none) := by
  constructor
  · intro vm h v k hroot hget
    induction k with
    | zero => exact hget
    | succ k ih =>
      rw [Function.iterate_succ_apply']
      have hroot2 : h.idx ∈ ((VM.gc)^[k] vm).roots := by
        rw [gc_iter_roots]
        exact hroot
      rw [gc_get_rooted _ h hroot2]
      exact ih
  · intro vm h hocc hnr
    have hm : h.idx ∉ vm.markSet := fun hc => hnr (vm.markSet_sub_Reach _ hc)
    have hex : ∃ s, vm.slot? h.idx = some s ∧ s.val.isSome = true := by
      unfold VM.slotVal at hocc
      cases hl : vm.slot? h.idx with
      | none => rw [hl] at hocc; simp at hocc
      | some s => rw [hl] at hocc; exact ⟨s, rfl, hocc⟩
    obtain ⟨s, hs, hsv⟩ := hex
    have hgc : (vm.gc).slot? h.idx = some ⟨s.gen + 1, none⟩ := by
      show (sweepFrom vm.markSet 0 vm.slots)[h.idx]? = _
      rw [sweepFrom_getElem?]
      simp only [Nat.zero_add]
      rw [show vm.slots[h.idx]? = some s from hs]
      simp [hsv, hm]
    constructor
    · unfold VM.slotVal
      rw [hgc]
      rfl
    · unfold VM.get
      rw [hgc]
      split
      · rename_i s2 heq
        cases heq
        split <;> rfl
      · rfl

/-- An unrooted single cons (for the reclamation part of C2). -/
def exVMUnrooted : VM := exConsA.2

theorem exVMUnrooted_unreachable : ¬ exVMUnrooted.Reach 0 := by
  rintro ⟨i, hi, -⟩
  rw [show exVMUnrooted.roots = [] from rfl] at hi
  exact (List.not_mem_nil i) hi

theorem claim_C2_witness :
    ((⟨0, 0⟩ : Handle).idx ∈ exVMRooted.roots ∧
      ((VM.gc)^[3] exVMRooted).get ⟨0, 0⟩ = some (.Cons Object.True Object.Nil)) ∧
    ((exVMUnrooted.slotVal 0).isSome = true ∧
      (exVMUnrooted.gc).slotVal 0 = none ∧ (exVMUnrooted.gc).get ⟨0, 0⟩ = none) := by
  refine ⟨⟨by decide, claim_C2.1 exVMRooted ⟨0, 0⟩ _ 3 (by decide) (by decide)⟩, ?_⟩
  have h2 := claim_C2.2 exVMUnrooted ⟨0, 0⟩ (by decide) exVMUnrooted_unreachable
  exact ⟨by decide, h2.1, h2.2⟩

/-! ## Claim C5 -/

def c5pairInner : Object × VM := VM.new.cons (VM.new.int 0) Object.Nil

def c5pairOuter : Object × VM := (c5pairInner.2).cons (VM.new.int 1) c5pairInner.1

def c5dotted : Object × VM := VM.new.cons (VM.new.int 1) (VM.new.int 0)

def c5vecA : Object × VM := VM.new.vec 3

def c5vecB : VM := ((c5vecA.2).vec_set c5vecA.1 0 (VM.new.int 0)).2

def c5vecC : VM := (c5vecB.vec_set c5vecA.1 1 Object.Nil).2

def c5vecD : VM := (c5vecC.vec_set c5vecA.1 2 (VM.new.float (.num (Rat.mk' 23 10)))).2

set_option maxRecDepth 8000 in
/-- C5: the renderer produces the canonical texts: `nil` for Nil, `(1 0)`
for the cons chain pair(1, pair(0, Nil)) iterated to a Nil terminator,
`(1 . 0)` in dotted-pair notation for a non-Nil terminator, `#(0 nil 2.3)`
for a three-element vector holding 0, Nil and 2.3, and `0.0` for the float
zero with the decimal point forced. -/
theorem claim_C5 :
    VM.new.render Object.Nil = "nil" ∧
    (c5pairOuter.2).render c5pairOuter.1 = "(1 0)" ∧
    (c5dotted.2).render c5dotted.1 = "(1 . 0)" ∧
    c5vecD.render c5vecA.1 = "#(0 nil 2.3)" ∧
    VM.new.render (VM.new.float (.num 0)) = "0.0" := by
  refine ⟨by decide, by decide, by decide, by decide, by decide⟩

/-! ## Claim C6 -/

/-- Does a resolved object expose a vector? -/
def isVecD : DObj → Bool
  | .H (.Vec _) => true
  | _ => false

/-- Does a resolved object expose a cons cell? -/
def isConsD : DObj → Bool
  | .H (.Cons _ _) => true
  | _ => false

def c6vec : Object × VM := VM.new.vec 3

/-- C6 counterexample: the claim asserts that the failure result of a
bounds violation is distinct from the failure result of a type mismatch;
in the code both are the very same value `Err(())`. -/
theorem claim_C6_cex :
    ((c6vec.2).vec_set c6vec.1 3 Object.Nil).1 = Except.error () ∧
    ((c6vec.2).vec_set (VM.new.int 0) 0 Object.Nil).1 = Except.error () ∧
    ((c6vec.2).vec_set c6vec.1 3 Object.Nil).1 =
      ((c6vec.2).vec_set (VM.new.int 0) 0 Object.Nil).1 := by
  refine ⟨rfl, rfl, rfl⟩

/-- C6 (amended): `vec_set` with an index past the vector's length fails
with `Err(())`, and so does `vec_set` on a reference that does not resolve
to a vector; the failure value is distinct from the success value
`Ok(())`, but the two failure cases return the same value, so they cannot
be told apart from the returned values alone. -/
theorem claim_C6 :
    (∀ (vm : VM) (h : Handle) (i : Nat) (x : Object) (elems : List Object),
      vm.get h = some (.Vec elems) → elems.length ≤ i →
      (vm.vec_set (.H h) i x).1 = Except.error ()) ∧
    (∀ (vm : VM) (o : Object) (i : Nat) (x : Object),
      isVecD (vm.direct o) = false → (vm.vec_set o i x).1 = Except.error ()) ∧
    ((Except.error () : Except Unit Unit) ≠ Except.ok ()) := by
  refine ⟨?_, ?_, fun hcon => Except.noConfusion hcon⟩
  · intro vm h i x elems hg hlen
    simp only [VM.vec_set, hg]
    rw [if_neg (Nat.not_lt_of_ge hlen)]
  · intro vm o i x hv
    cases o with
    | S v => rfl
    | H h =>
      simp only [VM.direct] at hv
      simp only [VM.vec_set]
      cases hg : vm.get h with
      | none => simp [hg]
      | some v =>
        simp only [hg] at hv ⊢
        cases v with
        | Cons a d => rfl
        | Vec elems => simp [isVecD] at hv
        | String s => rfl

theorem claim_C6_witness :
    ((c6vec.2).vec_set c6vec.1 5 Object.Undef).1 = Except.error () ∧
    ((c6vec.2).vec_set Object.True 0 Object.Undef).1 = Except.error () := by
  constructor
  · exact claim_C6.1 c6vec.2 ⟨0, 0⟩ 5 Object.Undef
      (List.replicate 3 Object.Undef) (by decide) (by decide)
  · exact claim_C6.2.1 c6vec.2 Object.True 0 Object.Undef (by decide)

/-! ## Claim C7 -/

/-- C7: `car` and `cdr` return nothing whenever the reference does not
resolve to a cons cell; `vec_get` returns nothing whenever the reference
does not resolve to a vector; and `vec_get` past the end of an actual
vector returns nothing rather than failing fatally. -/
theorem claim_C7 :
    (∀ (vm : VM) (o : Object), isConsD (vm.direct o) = false →
      vm.car o = none ∧ vm.cdr o = none) ∧
    (∀ (vm : VM) (o : Object) (i : Nat), isVecD (vm.direct o) = false →
      vm.vec_get o i = none) ∧
    (∀ (vm : VM) (o : Object) (elems : List Object) (i : Nat),
      vm.direct o = .H (.Vec elems) → elems.length ≤ i →
      vm.vec_get o i = none) := by
  refine ⟨?_, ?_, ?_⟩
  · intro vm o hc
    unfold VM.car VM.cdr
    cases hd : vm.direct o with
    | D h => exact ⟨rfl, rfl⟩
    | S v => exact ⟨rfl, rfl⟩
    | H v =>
      cases v with
      | Cons a d => rw [hd] at hc; exact absurd hc (by simp [isConsD])
      | Vec elems => exact ⟨rfl, rfl⟩
      | String s => exact ⟨rfl, rfl⟩
  · intro vm o i hv
    unfold VM.vec_get
    cases hd : vm.direct o with
    | D h => rfl
    | S v => rfl
    | H v =>
      cases v with
      | Cons a d => rfl
      | Vec elems => rw [hd] at hv; exact absurd hv (by simp [isVecD])
      | String s => rfl
  · intro vm o elems i hd hlen
    unfold VM.vec_get
    rw [hd]
    exact List.getElem?_eq_none hlen

theorem claim_C7_witness :
    (VM.new.car (VM.new.int 5) = none ∧ VM.new.cdr (VM.new.int 5) = none) ∧
    VM.new.vec_get Object.True 0 = none ∧
    (c6vec.2).vec_get c6vec.1 3 = none :=
  ⟨claim_C7.1 VM.new (VM.new.int 5) (by decide),
   claim_C7.2.1 VM.new Object.True 0 (by decide),
   claim_C7.2.2 c6vec.2 c6vec.1 (List.replicate 3 Object.Undef) 3
     (by decide) (by decide)⟩

/-! ## Claim C8 -/

/-- Does a stack value contain the NaN float? -/
def svalIsNaN : SVal → Bool
  | .Float .nan => true
  | _ => false

/-- C8 counterexample: the claim asserts every StackValue equals itself,
but the derived `PartialEq` compares float payloads with IEEE `==`, under
which a NaN value is unequal to itself. -/
theorem claim_C8_cex :
    svalEq (.Float .nan) (.Float .nan) = false ∧
    objEq (.S (.Float .nan)) (.S (.Float .nan)) = false :=
  ⟨rfl, rfl⟩

/-- C8 (amended): equality on references (Object/Object, Object/Rooted,
Rooted/Object, Rooted/Rooted) holds exactly when both sides are immediate
and their stack values compare equal, or both are heap-resident with
identical handles; a comparison between an immediate and a heap-resident
reference is always unequal; and stack-value equality is structural on
every variant except `Float`, whose payloads use IEEE comparison — so
every StackValue not containing NaN equals itself. -/
theorem claim_C8 :
    (∀ a b : SVal, objEq (.S a) (.S b) = svalEq a b) ∧
    (∀ h1 h2 : Handle, objEq (.H h1) (.H h2) = decide (h1 = h2)) ∧
    (∀ (a : SVal) (h : Handle),
      objEq (.S a) (.H h) = false ∧ objEq (.H h) (.S a) = false) ∧
    (∀ a b : SVal, objRootedEq (.S a) (.S b) = svalEq a b ∧
      rootedObjEq (.S a) (.S b) = svalEq a b ∧
      rootedEq (.S a) (.S b) = svalEq a b) ∧
    (∀ h1 h2 : Handle, objRootedEq (.H h1) (.H h2) = decide (h1 = h2) ∧
      rootedObjEq (.H h1) (.H h2) = decide (h1 = h2) ∧
      rootedEq (.H h1) (.H h2) = decide (h1 = h2)) ∧
    (∀ (a : SVal) (h : Handle),
      objRootedEq (.S a) (.H h) = false ∧ objRootedEq (.H h) (.S a) = false ∧
      rootedObjEq (.S a) (.H h) = false ∧ rootedObjEq (.H h) (.S a) = false ∧
      rootedEq (.S a) (.H h) = false ∧ rootedEq (.H h) (.S a) = false) ∧
    (∀ v : SVal, svalIsNaN v = false → svalEq v v = true) := by
  refine ⟨fun a b => rfl, fun h1 h2 => rfl, fun a h => ⟨rfl, rfl⟩,
    fun a b => ⟨rfl, rfl, rfl⟩, fun h1 h2 => ⟨rfl, rfl, rfl⟩,
    fun a h => ⟨rfl, rfl, rfl, rfl, rfl, rfl⟩, ?_⟩
  intro v hv
  cases v with
  | Undefined => rfl
  | Nil => rfl
  | Bool b => cases b <;> rfl
  | Int n => simp [svalEq]
  | Float f =>
    cases f with
    | num q => simp [svalEq, f64Eq]
    | inf b => cases b <;> rfl
    | nan => cases hv

theorem claim_C8_witness :
    svalIsNaN (.Int 3) = false ∧ svalEq (.Int 3) (.Int 3) = true :=
  ⟨by decide, claim_C8.2.2.2.2.2.2 (.Int 3) (by decide)⟩

/-! ## Claim C9 -/

/-- C9: the tracer yields, for a cons heap value, exactly the traces of
its head and tail in that order; for a vector, the traces of its elements
in order; for a string, nothing; and tracing a reference yields its handle
exactly when the reference is heap-resident. -/
theorem claim_C9 :
    (∀ a d : Object, (HVal.Cons a d).trace = a.trace ++ d.trace) ∧
    (∀ elems : List Object,
      (HVal.Vec elems).trace = (elems.map Object.trace).flatten) ∧
    (∀ s : List Nat, (HVal.String s).trace = []) ∧
    (∀ h : Handle, (Object.H h).trace = [h]) ∧
    (∀ v : SVal, (Object.S v).trace = []) ∧
    (∀ (o : Object) (h : Handle), h ∈ o.trace ↔ o = .H h) := by
  refine ⟨fun a d => rfl, fun e => rfl, fun s => rfl, fun h => rfl,
    fun v => rfl, ?_⟩
  intro o h
  cases o with
  | S v => simp [Object.trace]
  | H h2 => simp [Object.trace, eq_comm]

/-! ## Claim C10 -/

theorem vec_get_of_get {vm : VM} {h : Handle} {elems : List Object}
    (hg : vm.get h = some (.Vec elems)) (i : Nat) :
    vm.vec_get (.H h) i = elems[i]? := by
  have hd : vm.direct (.H h) = DObj.H (.Vec elems) := by
    simp only [VM.direct, hg]
  unfold VM.vec_get
  rw [hd]

/-- C10: `vec n` creates a heap-resident vector of exactly `n` elements,
each initialized to the Undefined immediate: `vec_get` on the fresh vector
returns `some Undefined` for every index below `n` and `none` for every
index at or past `n`. -/
theorem claim_C10 (vm : VM) (n i : Nat) :
    ((vm.vec n).2).vec_get (vm.vec n).1 i =
      if i < n then some Object.Undef else none := by
  have h1 : ((vm.vec n).2).vec_get (vm.vec n).1 i =
      (List.replicate n Object.Undef)[i]? :=
    vec_get_of_get (insert_temp_get vm _) i
  rw [h1, List.getElem?_replicate]

end Ginkgo
